import Mathlib

/-!
Verification development for the `webcalc` server crate
(`src/server/src/lib.rs`).

Modelling conventions:
* Rust strings are shallowly embedded as `List Char`; `str::trim`,
  `str::to_lowercase` and `str::split` are embedded as executable list
  functions below.  `trim` strips the Unicode White_Space property
  exactly as `str::trim` does; case folding is ASCII, which is faithful
  for matching against the five all-ASCII operator names (no other
  code point lowercases to any of their letters).
* `f64` literal parsing (`str::parse::<f64>()`) is embedded as the
  decidable acceptance test `isF64Lit` of Rust's documented float-literal
  grammar; an accepted operand is represented by its (trimmed) source
  literal, which is faithful for parse success/failure and for the order
  of the operand list.
* The thread pool's shared mpsc channel, worker threads and the
  `Drop` implementation are embedded as a labelled transition system
  (`Step` / `Steps`) over `PoolState`; see the comments on each
  constructor for the corresponding source lines.
-/

namespace Webcalc

/-- Whitespace test used by the embedded `str::trim`: the Unicode
White_Space property stripped by Rust's `str::trim` / matched by
`char::is_whitespace` — U+0009..U+000D, U+0020, U+0085 (NEL),
U+00A0 (NBSP), U+1680 (Ogham space mark), U+2000..U+200A (typographic
spaces), U+2028, U+2029 (line/paragraph separators), U+202F (narrow
no-break space), U+205F (medium mathematical space) and U+3000
(ideographic space). -/
def isWS (c : Char) : Bool :=
  let n := c.toNat
  (9 ≤ n && n ≤ 13) || n == 32 || n == 133 || n == 160 || n == 5760 ||
  (8192 ≤ n && n ≤ 8202) || n == 8232 || n == 8233 || n == 8239 ||
  n == 8287 || n == 12288

/-- Embedded `str::trim`: drop whitespace from the front. -/
def trimL (cs : List Char) : List Char := cs.dropWhile isWS

/-- Embedded `str::trim`: drop whitespace from the back. -/
def trimR (cs : List Char) : List Char := (cs.reverse.dropWhile isWS).reverse

/-- Embedded `str::trim`: drop whitespace from both ends. -/
def trim (cs : List Char) : List Char := trimR (trimL cs)

/-- ASCII case folding, embedding `str::to_lowercase` on the ASCII strings
the server compares against. -/
def toLowerChar (c : Char) : Char :=
  match c with
  | 'A' => 'a' | 'B' => 'b' | 'C' => 'c' | 'D' => 'd' | 'E' => 'e'
  | 'F' => 'f' | 'G' => 'g' | 'H' => 'h' | 'I' => 'i' | 'J' => 'j'
  | 'K' => 'k' | 'L' => 'l' | 'M' => 'm' | 'N' => 'n' | 'O' => 'o'
  | 'P' => 'p' | 'Q' => 'q' | 'R' => 'r' | 'S' => 's' | 'T' => 't'
  | 'U' => 'u' | 'V' => 'v' | 'W' => 'w' | 'X' => 'x' | 'Y' => 'y'
  | 'Z' => 'z'
  | c => c

/-- Embedded `str::to_lowercase`. -/
def toLowerStr (cs : List Char) : List Char := cs.map toLowerChar

/-- ASCII digit test (`char::is_ascii_digit`, the digits accepted by
`usize`/`f64` parsing). -/
def isDigitChar (c : Char) : Bool := 48 ≤ c.toNat && c.toNat ≤ 57

/-- Numeric value of a digit string (big-endian). -/
def digitsToNat (cs : List Char) : Nat :=
  cs.foldl (fun acc c => acc * 10 + (c.toNat - 48)) 0

/-- Embedded `str::parse::<usize>()`: an optional leading `+`, then a
nonempty run of ASCII digits, rejecting values that overflow the 64-bit
`usize`. -/
def parseUsize (cs : List Char) : Option Nat :=
  let body := match cs with
    | '+' :: rest => rest
    | _ => cs
  if body.isEmpty then none
  else if body.all isDigitChar then
    let v := digitsToNat body
    if v < 2 ^ 64 then some v else none
  else none

/-- Source constant `WORKER_POOL_MIN_SIZE` (lib.rs line 189). -/
def WORKER_POOL_MIN_SIZE : Nat := 1

/-- Source constant `WORKER_POOL_MAX_SIZE` (lib.rs line 190). -/
def WORKER_POOL_MAX_SIZE : Nat := 16

/-- Embedding of `ServerConfig` (lib.rs lines 105-109). -/
structure ServerConfig where
  host : List Char
  port : List Char
  pool_size : Nat
deriving DecidableEq, Repr

/-- Embedding of `ServerConfigError` (lib.rs lines 147-156). -/
structure ServerConfigError where
  msg : String
deriving DecidableEq, Repr

/-- Embedding of `ServerConfig::new` (lib.rs lines 112-145).  The
argument list plays the role of `env::Args`; its head is the program
name, which the source discards with the first `args.next()`. -/
def ServerConfig.new (args : List (List Char)) : Except ServerConfigError ServerConfig :=
  match args.drop 1 with
  | [] => .error ⟨"failed to get host argument"⟩
  | [_] => .error ⟨"failed to get port argument"⟩
  | [_, _] => .error ⟨"failed to get pool size argument"⟩
  | host :: port :: pool_size :: _ =>
    match parseUsize (trim pool_size) with
    | none => .error ⟨"failed to parse pool size as usize"⟩
    | some size =>
      if size < WORKER_POOL_MIN_SIZE || size > WORKER_POOL_MAX_SIZE then
        .error ⟨"invalid pool size"⟩
      else
        .ok ⟨host, port, size⟩

/-- Source constant `OPERATOR_ADD` (lib.rs line 310). -/
def OPERATOR_ADD : List Char := ['a', 'd', 'd']

/-- Source constant `OPERATOR_SUB` (lib.rs line 311). -/
def OPERATOR_SUB : List Char := ['s', 'u', 'b']

/-- Source constant `OPERATOR_MUL` (lib.rs line 312). -/
def OPERATOR_MUL : List Char := ['m', 'u', 'l']

/-- Source constant `OPERATOR_DIV` (lib.rs line 313). -/
def OPERATOR_DIV : List Char := ['d', 'i', 'v']

/-- Source constant `OPERATOR_REM` (lib.rs line 314). -/
def OPERATOR_REM : List Char := ['r', 'e', 'm']

/-- Embedding of `enum Operator` (lib.rs lines 316-323). -/
inductive Operator where
  | add
  | sub
  | mul
  | div
  | rem
deriving DecidableEq, Repr

/-- The `match` on the trimmed, lowercased operator string inside
`Calculation::parse` (lib.rs lines 332-339). -/
def opMatch (s : List Char) : Option Operator :=
  if s = OPERATOR_ADD then some .add
  else if s = OPERATOR_SUB then some .sub
  else if s = OPERATOR_MUL then some .mul
  else if s = OPERATOR_DIV then some .div
  else if s = OPERATOR_REM then some .rem
  else none

/-- Embedded `str::split(",")`: split at every comma, keeping empty
pieces (so the empty string yields one empty token, as in Rust). -/
def splitOnComma : List Char → List (List Char)
  | [] => [[]]
  | c :: rest =>
    if c = ',' then [] :: splitOnComma rest
    else
      match splitOnComma rest with
      | [] => [[c]]
      | t :: ts => (c :: t) :: ts

/-- Strip one optional leading sign, as in Rust's float grammar. -/
def stripSign : List Char → List Char
  | [] => []
  | c :: r => if c = '+' || c = '-' then r else c :: r

/-- Exponent part of Rust's float grammar: either nothing, or
`e`/`E`, an optional sign, and a nonempty digit run ending the token. -/
def expPart : List Char → Bool
  | [] => true
  | c :: r =>
    if c = 'e' || c = 'E' then
      let r2 := stripSign r
      !(r2.takeWhile isDigitChar).isEmpty && (r2.dropWhile isDigitChar).isEmpty
    else false

/-- Number part of Rust's float grammar after the sign: digits with an
optional point and fraction (at least one digit overall), then an
optional exponent. -/
def mantissaAndExp (cs : List Char) : Bool :=
  let d1 := cs.takeWhile isDigitChar
  let r1 := cs.dropWhile isDigitChar
  match r1 with
  | '.' :: r2 =>
    let d2 := r2.takeWhile isDigitChar
    let r3 := r2.dropWhile isDigitChar
    decide (1 ≤ d1.length + d2.length) && expPart r3
  | _ => decide (1 ≤ d1.length) && expPart r1

/-- Embedded acceptance test of `str::parse::<f64>()` (Rust's documented
float-literal grammar): an optional sign, then `inf`, `infinity`, `nan`
(any case) or a decimal number with optional exponent. -/
def isF64Lit (cs : List Char) : Bool :=
  let b := stripSign cs
  toLowerStr b == ['i', 'n', 'f'] ||
  toLowerStr b == ['i', 'n', 'f', 'i', 'n', 'i', 't', 'y'] ||
  toLowerStr b == ['n', 'a', 'n'] ||
  mantissaAndExp b

/-- Embedding of `CalculationParseError` (lib.rs lines 355-364). -/
structure CalculationParseError where
  msg : String
deriving DecidableEq, Repr

/-- Embedding of `Calculation` (lib.rs lines 325-328).  An `f64` operand
is represented by its trimmed source literal. -/
structure Calculation where
  operator : Operator
  operands : List (List Char)
deriving DecidableEq, Repr

/-- The operand loop of `Calculation::parse` (lib.rs lines 340-347):
trim each comma-separated token, parse it as a float, stop at the first
failure, and keep the parsed values in order. -/
def parseOperandTokens : List (List Char) → Except CalculationParseError (List (List Char))
  | [] => .ok []
  | t :: ts =>
    if isF64Lit (trim t) then
      match parseOperandTokens ts with
      | .error e => .error e
      | .ok vs => .ok (trim t :: vs)
    else .error ⟨"invalid float literal"⟩

/-- Embedding of `Calculation::parse` (lib.rs lines 331-352). -/
def Calculation.parse (operator operands : List Char) : Except CalculationParseError Calculation :=
  match opMatch (toLowerStr (trim operator)) with
  | none => .error ⟨"unknown operator"⟩
  | some op =>
    match parseOperandTokens (splitOnComma (trim operands)) with
    | .error e => .error e
    | .ok vs => .ok ⟨op, vs⟩

/-- Embedding of `WorkerPoolNewError` (lib.rs lines 238-247). -/
structure WorkerPoolNewError where
  msg : String
deriving DecidableEq, Repr

/-- Modulus of the truncating `i as u16` cast applied to the worker
index in `WorkerPool::new` (lib.rs line 206). -/
def U16_MOD : Nat := 65536

/-- Embedding of `struct Worker` (lib.rs lines 284-287): the thread
handle is not part of the static constructor model, only the `u16` id. -/
structure Worker where
  id : Nat
deriving DecidableEq, Repr

/-- Embedding of `Worker::new` (lib.rs lines 289-308) as seen by the
constructor: `spawnOk` abstracts whether `thread::Builder::spawn`
succeeds for this worker. -/
def Worker.new (spawnOk : Bool) (id : Nat) : Except WorkerPoolNewError Worker :=
  if spawnOk then .ok ⟨id⟩ else .error ⟨"failed to spawn worker thread"⟩

/-- The `for i in 0..size` loop of `WorkerPool::new` (lib.rs lines
205-211): spawn workers for indices `i, i+1, ...` while `n` remain,
aborting on the first spawn failure.  Each id is the `u16` cast of the
loop index. -/
def mkWorkers (spawnOk : Nat → Bool) (i : Nat) : Nat → Except WorkerPoolNewError (List Worker)
  | 0 => .ok []
  | n + 1 =>
    match Worker.new (spawnOk i) (i % U16_MOD) with
    | .error e => .error e
    | .ok w =>
      match mkWorkers spawnOk (i + 1) n with
      | .error e => .error e
      | .ok ws => .ok (w :: ws)

/-- Embedding of `struct WorkerPool` (lib.rs lines 192-195): the
producer handle `job_send` belongs to the dynamic channel model below,
so the static value is just the worker list. -/
structure WorkerPool where
  workers : List Worker
deriving DecidableEq, Repr

/-- Embedding of `WorkerPool::new` (lib.rs lines 198-213).  Note that
the source performs no bounds check on `size`. -/
def WorkerPool.new (spawnOk : Nat → Bool) (size : Nat) : Except WorkerPoolNewError WorkerPool :=
  match mkWorkers spawnOk 0 size with
  | .error e => .error e
  | .ok ws => .ok ⟨ws⟩

/-- Embedding of `enum JobMessage` (lib.rs lines 184-187): a queued
message is either a job, identified by its `Uuid` (modelled as a `Nat`),
or the terminate sentinel. -/
inductive Msg where
  | work (id : Nat)
  | terminate
deriving DecidableEq, Repr

/-- Status of one worker thread: still in its receive loop, exited the
loop through the `Terminate` arm, or killed by a panic unwinding out of
the executed job's closure. -/
inductive WStatus where
  | running
  | terminated
  | crashed
deriving DecidableEq, Repr

/-- Dynamic state of the pool's shared mpsc channel and worker threads:
the FIFO message queue (head = next message to be received) and the
status of each worker, indexed by its spawn order. -/
structure PoolState where
  queue : List Msg
  workers : List WStatus
deriving DecidableEq, Repr

/-- State right after `WorkerPool::new(size)` returned: empty queue,
every spawned worker blocked in its receive loop. -/
def initState (size : Nat) : PoolState :=
  ⟨[], List.replicate size .running⟩

/-- The channel's receiving side is still alive: some worker thread is
still in its loop and therefore still holds its `Arc` clone of the
receiver.  `mpsc::Sender::send` succeeds exactly in this case. -/
def recvOpen (s : PoolState) : Bool :=
  s.workers.any fun st => st == .running

/-- Every worker thread has exited through the `Terminate` arm. -/
def allTerminated (s : PoolState) : Prop :=
  ∀ st ∈ s.workers, st = WStatus.terminated

instance (s : PoolState) : Decidable (allTerminated s) := by
  unfold allTerminated; infer_instance

/-- Embedding of `WorkerPoolExecuteError` (lib.rs lines 261-270). -/
structure WorkerPoolExecuteError where
  msg : String
deriving DecidableEq, Repr

/-- Embedding of `WorkerPool::execute` (lib.rs lines 215-222) acting on
the channel state: `send` enqueues at the tail and fails exactly when
the receiving side has been dropped; the call never blocks. -/
def PoolState.execute (s : PoolState) (a : Nat) : Except WorkerPoolExecuteError PoolState :=
  if recvOpen s then .ok ⟨s.queue ++ [.work a], s.workers⟩
  else .error ⟨"failed to execute job: job_id=" ++ toString a⟩

/-- Observable events of one interleaved run of the pool. -/
inductive Event where
  | submit (id : Nat)
  | submitFail (id : Nat)
  | dequeueWork (w id : Nat)
  | dequeueTerm (w : Nat)
  | enqueueTerm
deriving DecidableEq, Repr

/-- Labelled transition relation of the pool, parametrised by which job
ids have a panicking action (`P`).

* `submit` / `submitFail`: a call of `WorkerPool::execute`
  (lib.rs lines 215-222), through `PoolState.execute`.
* `dequeueWork`: a worker in its loop receives `NewJob` under the
  receiver mutex and runs the job's closure (lib.rs lines 293-298).  If
  the closure panics, the unwind kills that worker thread.
* `dequeueTerm`: a worker receives `Terminate` and breaks out of its
  loop (lib.rs lines 299-302).
* `enqueueTerm`: one `send(JobMessage::Terminate).unwrap()` from
  `Drop for WorkerPool` (lib.rs lines 227-229); the `unwrap` succeeding
  means the receiving side was still open. -/
inductive Step (P : Nat → Bool) : PoolState → Event → PoolState → Prop
  | submit {s s' : PoolState} {a : Nat} :
      PoolState.execute s a = .ok s' → Step P s (.submit a) s'
  | submitFail {s : PoolState} {a : Nat} {e : WorkerPoolExecuteError} :
      PoolState.execute s a = .error e → Step P s (.submitFail a) s
  | dequeueWork {s : PoolState} {w a : Nat} {rest : List Msg} :
      s.workers[w]? = some .running → s.queue = .work a :: rest →
      Step P s (.dequeueWork w a)
        ⟨rest, if P a then s.workers.set w .crashed else s.workers⟩
  | dequeueTerm {s : PoolState} {w : Nat} {rest : List Msg} :
      s.workers[w]? = some .running → s.queue = .terminate :: rest →
      Step P s (.dequeueTerm w) ⟨rest, s.workers.set w .terminated⟩
  | enqueueTerm {s : PoolState} :
      recvOpen s = true → Step P s .enqueueTerm ⟨s.queue ++ [.terminate], s.workers⟩

/-- Finite runs of the transition system; the trace lists events oldest
first. -/
inductive Steps (P : Nat → Bool) : PoolState → List Event → PoolState → Prop
  | nil {s : PoolState} : Steps P s [] s
  | cons {s s₁ s₂ : PoolState} {e : Event} {tr : List Event} :
      Step P s e s₁ → Steps P s₁ tr s₂ → Steps P s (e :: tr) s₂

/-- Messages that an event appends to the queue. -/
def msgsOf : Event → List Msg
  | .submit a => [.work a]
  | .enqueueTerm => [.terminate]
  | _ => []

/-- All messages enqueued along a trace, in order. -/
def enqOf : List Event → List Msg
  | [] => []
  | e :: tr => msgsOf e ++ enqOf tr

/-- Whether an event consumes one message from the queue. -/
def isDeq : Event → Bool
  | .dequeueWork _ _ => true
  | .dequeueTerm _ => true
  | _ => false

/-- Number of messages consumed along a trace. -/
def deqCount (tr : List Event) : Nat := tr.countP isDeq

/-- Whether an event is a successful submission of job `a`. -/
def isSubmitOf (a : Nat) : Event → Bool
  | .submit b => decide (b = a)
  | _ => false

/-- Number of successful submissions of job `a` along a trace. -/
def countSubmit (tr : List Event) (a : Nat) : Nat := tr.countP (isSubmitOf a)

/-- Whether an event dequeues-and-runs job `a` on some worker. -/
def isExecOf (a : Nat) : Event → Bool
  | .dequeueWork _ b => decide (b = a)
  | _ => false

/-- Number of times job `a` is dequeued and run along a trace. -/
def countExec (tr : List Event) (a : Nat) : Nat := tr.countP (isExecOf a)

/-- Number of occurrences of a message in a queue. -/
def countMsg (q : List Msg) (m : Msg) : Nat := q.countP fun x => decide (x = m)

/-- The event sequence produced by the send loop of
`Drop for WorkerPool` (lib.rs lines 227-229): one `Terminate` per
worker. -/
def dropSendEvents (n : Nat) : List Event := List.replicate n .enqueueTerm

theorem execute_eq_ok {s s' : PoolState} {a : Nat}
    (h : PoolState.execute s a = .ok s') :
    recvOpen s = true ∧ s' = ⟨s.queue ++ [.work a], s.workers⟩ := by
  by_cases hr : recvOpen s = true
  · refine ⟨hr, ?_⟩
    unfold PoolState.execute at h
    rw [if_pos hr] at h
    exact (Except.ok.inj h).symm
  · unfold PoolState.execute at h
    rw [if_neg hr] at h
    cases h

theorem execute_eq_error {s : PoolState} {a : Nat} {e : WorkerPoolExecuteError}
    (h : PoolState.execute s a = .error e) : recvOpen s = false := by
  by_cases hr : recvOpen s = true
  · unfold PoolState.execute at h
    rw [if_pos hr] at h
    cases h
  · simpa using hr

theorem recvOpen_of_running {s : PoolState} {w : Nat}
    (h : s.workers[w]? = some .running) : recvOpen s = true := by
  have hmem : WStatus.running ∈ s.workers := List.getElem?_mem h
  unfold recvOpen
  rw [List.any_eq_true]
  exact ⟨.running, hmem, by simp⟩

theorem recvOpen_eq_false_of_allTerminated {s : PoolState}
    (h : allTerminated s) : recvOpen s = false := by
  unfold recvOpen
  rw [List.any_eq_false]
  intro st hst
  rw [h st hst]
  simp

/-- The queue of any reachable state is the enqueued message sequence
minus the consumed front. -/
theorem steps_queue {P : Nat → Bool} {s s' : PoolState} {tr : List Event}
    (h : Steps P s tr s') :
    s'.queue = (s.queue ++ enqOf tr).drop (deqCount tr) := by
  induction h with
  | nil => simp [enqOf, deqCount]
  | @cons s s₁ s₂ e tr hst hrest ih =>
    cases hst with
    | submit hex =>
      obtain ⟨-, rfl⟩ := execute_eq_ok hex
      rw [ih]
      simp [enqOf, msgsOf, deqCount, List.countP_cons, isDeq, List.append_assoc]
    | submitFail hex =>
      rw [ih]
      simp [enqOf, msgsOf, deqCount, List.countP_cons, isDeq]
    | dequeueWork hrun hq =>
      rw [ih]
      simp [enqOf, msgsOf, deqCount, List.countP_cons, isDeq, hq]
    | dequeueTerm hrun hq =>
      rw [ih]
      simp [enqOf, msgsOf, deqCount, List.countP_cons, isDeq, hq]
    | enqueueTerm hr =>
      rw [ih]
      simp [enqOf, msgsOf, deqCount, List.countP_cons, isDeq, List.append_assoc]

theorem steps_append_split {P : Nat → Bool} {s s' : PoolState} {l₁ l₂ : List Event}
    (h : Steps P s (l₁ ++ l₂) s') :
    ∃ m, Steps P s l₁ m ∧ Steps P m l₂ s' := by
  induction l₁ generalizing s with
  | nil => exact ⟨s, .nil, h⟩
  | cons e l ih =>
    cases h with
    | cons hst hrest =>
      obtain ⟨m, h1, h2⟩ := ih hrest
      exact ⟨m, .cons hst h1, h2⟩

theorem steps_comp {P : Nat → Bool} {s m s' : PoolState} {l₁ l₂ : List Event}
    (h1 : Steps P s l₁ m) (h2 : Steps P m l₂ s') : Steps P s (l₁ ++ l₂) s' := by
  induction h1 with
  | nil => simpa using h2
  | cons hst hrest ih => exact .cons hst (ih h2)

/-- Split a run at the event occurring at trace index `p`. -/
theorem steps_at {P : Nat → Bool} {s s' : PoolState} {tr : List Event} {p : Nat} {e : Event}
    (h : Steps P s tr s') (hp : tr[p]? = some e) :
    ∃ m₁ m₂, Steps P s (tr.take p) m₁ ∧ Step P m₁ e m₂ ∧
      Steps P m₂ (tr.drop (p + 1)) s' := by
  obtain ⟨hlt, hget⟩ := List.getElem?_eq_some_iff.mp hp
  have hdecomp : tr = tr.take p ++ (e :: tr.drop (p + 1)) := by
    conv_lhs => rw [← List.take_append_drop p tr]
    rw [List.drop_eq_getElem_cons hlt, hget]
  rw [hdecomp] at h
  obtain ⟨m₁, h1, h2⟩ := steps_append_split h
  cases h2 with
  | cons hst hrest => exact ⟨m₁, _, h1, hst, hrest⟩

theorem step_workers_length {P : Nat → Bool} {s s' : PoolState} {e : Event}
    (h : Step P s e s') : s'.workers.length = s.workers.length := by
  cases h with
  | submit hex => obtain ⟨-, rfl⟩ := execute_eq_ok hex; rfl
  | submitFail hex => rfl
  | dequeueWork hrun hq => dsimp only; split <;> simp
  | dequeueTerm hrun hq => simp
  | enqueueTerm hr => rfl

theorem steps_workers_length {P : Nat → Bool} {s s' : PoolState} {tr : List Event}
    (h : Steps P s tr s') : s'.workers.length = s.workers.length := by
  induction h with
  | nil => rfl
  | cons hst _ ih => rw [ih, step_workers_length hst]

/-- A worker that has left its receive loop (terminated or crashed)
never changes status again. -/
theorem step_not_running_stable {P : Nat → Bool} {s s' : PoolState} {e : Event}
    {w : Nat} {st : WStatus} (h : Step P s e s')
    (hw : s.workers[w]? = some st) (hst : st ≠ .running) :
    s'.workers[w]? = some st := by
  cases h with
  | submit hex => obtain ⟨-, rfl⟩ := execute_eq_ok hex; exact hw
  | submitFail hex => exact hw
  | dequeueWork hrun hq =>
    rename_i w' a rest
    dsimp only
    split
    · rcases eq_or_ne w' w with rfl | hne
      · rw [hw] at hrun
        cases Option.some.inj hrun
        exact absurd rfl hst
      · rw [List.getElem?_set_ne hne]; exact hw
    · exact hw
  | dequeueTerm hrun hq =>
    rename_i w' rest
    dsimp only
    rcases eq_or_ne w' w with rfl | hne
    · rw [hw] at hrun
      cases Option.some.inj hrun
      exact absurd rfl hst
    · rw [List.getElem?_set_ne hne]; exact hw
  | enqueueTerm hr => exact hw

theorem steps_not_running_stable {P : Nat → Bool} {s s' : PoolState} {tr : List Event}
    {w : Nat} {st : WStatus} (h : Steps P s tr s')
    (hw : s.workers[w]? = some st) (hst : st ≠ .running) :
    s'.workers[w]? = some st := by
  induction h with
  | nil => exact hw
  | cons hst' hrest ih => exact ih (step_not_running_stable hst' hw hst)

/-- Once the receiving side is closed, the only possible events are
failed submissions, and the state never changes. -/
theorem steps_from_closed {P : Nat → Bool} {s s' : PoolState} {tr : List Event}
    (h : Steps P s tr s') (hc : recvOpen s = false) :
    s' = s ∧ ∀ e ∈ tr, ∃ a, e = Event.submitFail a := by
  induction h with
  | nil => exact ⟨rfl, by simp⟩
  | cons hst hrest ih =>
    cases hst with
    | submit hex =>
      obtain ⟨hr, -⟩ := execute_eq_ok hex
      rw [hr] at hc; cases hc
    | submitFail hex =>
      rename_i a err
      obtain ⟨heq, hall⟩ := ih hc
      refine ⟨heq, ?_⟩
      intro e he
      rcases List.mem_cons.mp he with rfl | hmem
      · exact ⟨a, rfl⟩
      · exact hall e hmem
    | dequeueWork hrun hq => rw [recvOpen_of_running hrun] at hc; cases hc
    | dequeueTerm hrun hq => rw [recvOpen_of_running hrun] at hc; cases hc
    | enqueueTerm hr => rw [hr] at hc; cases hc

theorem enqOf_append (l₁ l₂ : List Event) :
    enqOf (l₁ ++ l₂) = enqOf l₁ ++ enqOf l₂ := by
  induction l₁ with
  | nil => simp [enqOf]
  | cons e l ih => simp [enqOf, ih]

/-- Conservation of job messages: what has been executed plus what is
still queued equals what was submitted. -/
theorem steps_count {P : Nat → Bool} {s s' : PoolState} {tr : List Event}
    (h : Steps P s tr s') (a : Nat) :
    countMsg s'.queue (.work a) + countExec tr a
      = countMsg s.queue (.work a) + countSubmit tr a := by
  induction h with
  | nil => simp [countExec, countSubmit]
  | cons hst hrest ih =>
    cases hst with
    | submit hex =>
      rename_i b
      obtain ⟨-, rfl⟩ := execute_eq_ok hex
      simp only [countExec, countSubmit, countMsg, List.countP_cons,
        List.countP_append] at ih ⊢
      by_cases hba : b = a
      · subst hba; simp only [isExecOf, isSubmitOf] at ih ⊢; simp at ih ⊢; omega
      · simp only [isExecOf, isSubmitOf] at ih ⊢
        simp [hba] at ih ⊢
        omega
    | submitFail hex =>
      rename_i b err
      simp only [countExec, countSubmit, List.countP_cons] at ih ⊢
      simp only [isExecOf, isSubmitOf]
      simp
      omega
    | dequeueWork hrun hq =>
      rename_i w b rest
      simp only [countExec, countSubmit, countMsg, List.countP_cons, hq] at ih ⊢
      by_cases hba : b = a
      · subst hba; simp only [isExecOf, isSubmitOf] at ih ⊢; simp at ih ⊢; omega
      · simp only [isExecOf, isSubmitOf] at ih ⊢
        simp [hba, Msg.work.injEq] at ih ⊢
        omega
    | dequeueTerm hrun hq =>
      rename_i w rest
      simp only [countExec, countSubmit, countMsg, List.countP_cons, hq] at ih ⊢
      simp only [isExecOf, isSubmitOf]
      simp at ih ⊢
      omega
    | enqueueTerm hr =>
      simp only [countExec, countSubmit, countMsg, List.countP_cons,
        List.countP_append] at ih ⊢
      simp only [isExecOf, isSubmitOf]
      simp at ih ⊢
      omega

/-- The multiset of enqueued job messages matches the submissions. -/
theorem countMsg_enqOf (tr : List Event) (a : Nat) :
    countMsg (enqOf tr) (.work a) = countSubmit tr a := by
  induction tr with
  | nil => simp [enqOf, countMsg, countSubmit]
  | cons e tr ih =>
    cases e with
    | submit b =>
      simp only [enqOf, msgsOf, countMsg, countSubmit, List.countP_cons,
        List.countP_append, isSubmitOf] at ih ⊢
      by_cases hba : b = a
      · subst hba; simp [ih]; omega
      · simp [hba, Msg.work.injEq, ih]
    | submitFail b =>
      simp only [enqOf, msgsOf, countMsg, countSubmit, List.countP_cons,
        isSubmitOf, List.nil_append] at ih ⊢
      simp [ih]
    | dequeueWork w b =>
      simp only [enqOf, msgsOf, countMsg, countSubmit, List.countP_cons,
        isSubmitOf, List.nil_append] at ih ⊢
      simp [ih]
    | dequeueTerm w =>
      simp only [enqOf, msgsOf, countMsg, countSubmit, List.countP_cons,
        isSubmitOf, List.nil_append] at ih ⊢
      simp [ih]
    | enqueueTerm =>
      simp only [enqOf, msgsOf, countMsg, countSubmit, List.countP_cons,
        List.countP_append, isSubmitOf] at ih ⊢
      simp [ih]

theorem take_eq_take_append_of_le {α : Type} (l : List α) {k k' : Nat} (hk : k ≤ k') :
    l.take k' = l.take k ++ (l.take k').drop k := by
  conv_lhs => rw [← List.take_append_drop k (l.take k')]
  rw [List.take_take, Nat.min_eq_left hk]

theorem countP_take_mono {α : Type} (p : α → Bool) (l : List α) {k k' : Nat}
    (hk : k ≤ k') : (l.take k).countP p ≤ (l.take k').countP p := by
  rw [take_eq_take_append_of_le l hk, List.countP_append]
  omega

theorem deqCount_take_le (tr : List Event) (p : Nat) :
    deqCount (tr.take p) ≤ deqCount tr := by
  unfold deqCount
  conv_rhs => rw [← List.take_append_drop p tr]
  rw [List.countP_append]
  omega

theorem enqOf_take_getElem? {tr : List Event} {p k : Nat} {m : Msg}
    (hk : (enqOf (tr.take p))[k]? = some m) : (enqOf tr)[k]? = some m := by
  have h2 : enqOf tr = enqOf (tr.take p) ++ enqOf (tr.drop p) := by
    rw [← enqOf_append, List.take_append_drop]
  obtain ⟨hlt, -⟩ := List.getElem?_eq_some_iff.mp hk
  rw [h2, List.getElem?_append_left hlt]
  exact hk

/-- The message consumed by the dequeue event at trace index `p`. -/
def deqMsg : Event → Option Msg
  | .dequeueWork _ a => some (.work a)
  | .dequeueTerm _ => some .terminate
  | _ => none

/-- A dequeue event at trace index `p` consumes the message at position
`deqCount (tr.take p)` of the enqueued sequence: FIFO delivery. -/
theorem deq_event_enq_pos {P : Nat → Bool} {M : Nat} {tr : List Event} {s' : PoolState}
    {p : Nat} {e : Event} {m : Msg}
    (h : Steps P (initState M) tr s') (hp : tr[p]? = some e)
    (hm : deqMsg e = some m) :
    (enqOf tr)[deqCount (tr.take p)]? = some m := by
  obtain ⟨m₁, m₂, h1, hstep, h2⟩ := steps_at h hp
  have hq' : m₁.queue = (enqOf (tr.take p)).drop (deqCount (tr.take p)) := by
    have hq := steps_queue h1
    simpa [initState] using hq
  cases hstep with
  | submit hex => simp [deqMsg] at hm
  | submitFail hex => simp [deqMsg] at hm
  | dequeueWork hrun hqe =>
    rename_i w b rest
    obtain rfl : Msg.work b = m := by simpa [deqMsg] using hm
    have h0 : ((enqOf (tr.take p)).drop (deqCount (tr.take p)))[0]? = some (.work b) := by
      rw [← hq', hqe]; simp
    rw [List.getElem?_drop] at h0
    exact enqOf_take_getElem? (by simpa using h0)
  | dequeueTerm hrun hqe =>
    rename_i w rest
    obtain rfl : Msg.terminate = m := by simpa [deqMsg] using hm
    have h0 : ((enqOf (tr.take p)).drop (deqCount (tr.take p)))[0]? = some .terminate := by
      rw [← hq', hqe]; simp
    rw [List.getElem?_drop] at h0
    exact enqOf_take_getElem? (by simpa using h0)
  | enqueueTerm hr => simp [deqMsg] at hm

/-- A submission event at trace index `i` contributes the enqueued
message at position `(enqOf (tr.take i)).length`. -/
theorem submit_event_enq_pos {tr : List Event} {i : Nat} {a : Nat}
    (hi : tr[i]? = some (.submit a)) :
    (enqOf tr)[(enqOf (tr.take i)).length]? = some (.work a) := by
  have hsucc : tr.take (i + 1) = tr.take i ++ [Event.submit a] := by
    rw [List.take_succ, hi]; rfl
  have h1 : enqOf (tr.take (i + 1)) = enqOf (tr.take i) ++ [Msg.work a] := by
    rw [hsucc, enqOf_append]; rfl
  have h2 : enqOf tr = enqOf (tr.take (i + 1)) ++ enqOf (tr.drop (i + 1)) := by
    rw [← enqOf_append, List.take_append_drop]
  have hlt : (enqOf (tr.take i)).length < (enqOf (tr.take (i + 1))).length := by
    rw [h1]; simp
  rw [h2, List.getElem?_append_left hlt, h1]
  exact List.getElem?_concat_length _ _

theorem enqOf_take_succ_submit {tr : List Event} {i : Nat} {a : Nat}
    (hi : tr[i]? = some (.submit a)) :
    (enqOf (tr.take (i + 1))).length = (enqOf (tr.take i)).length + 1 := by
  have hsucc : tr.take (i + 1) = tr.take i ++ [Event.submit a] := by
    rw [List.take_succ, hi]; rfl
  rw [hsucc, enqOf_append]
  simp [enqOf, msgsOf]

theorem enqOf_take_length_mono (tr : List Event) {k k' : Nat} (hk : k ≤ k') :
    (enqOf (tr.take k)).length ≤ (enqOf (tr.take k')).length := by
  rw [take_eq_take_append_of_le tr hk, enqOf_append]
  simp

theorem deqCount_take_succ_deq {tr : List Event} {p : Nat} {e : Event}
    (hp : tr[p]? = some e) (hd : isDeq e = true) :
    deqCount (tr.take (p + 1)) = deqCount (tr.take p) + 1 := by
  have hsucc : tr.take (p + 1) = tr.take p ++ [e] := by
    rw [List.take_succ, hp]; rfl
  rw [hsucc]
  unfold deqCount
  rw [List.countP_append]
  simp [hd]

/-- Two distinct positions holding the same element contribute two to
any count that accepts that element. -/
theorem two_le_countP_of_getElem_lt {α : Type} {l : List α} {q : α → Bool}
    {i j : Nat} {x : α} (hij : i < j) (hi : l[i]? = some x) (hj : l[j]? = some x)
    (hx : q x = true) : 2 ≤ l.countP q := by
  have hi1 : l.take (i + 1) = l.take i ++ [x] := by
    rw [List.take_succ, hi]; rfl
  have hd : (l.drop (i + 1))[j - (i + 1)]? = some x := by
    rw [List.getElem?_drop]
    rwa [Nat.add_sub_cancel' (by omega : i + 1 ≤ j)]
  have hmem : x ∈ l.drop (i + 1) := List.getElem?_mem hd
  have h2 : 0 < (l.drop (i + 1)).countP q := by
    rw [List.countP_pos_iff]
    exact ⟨x, hmem, hx⟩
  conv_rhs => rw [← List.take_append_drop (i + 1) l]
  rw [List.countP_append, hi1, List.countP_append]
  simp [hx]
  omega

theorem getElem?_eq_of_countP_le_one {α : Type} {l : List α} {q : α → Bool}
    {i j : Nat} {x : α} (hc : l.countP q ≤ 1) (hi : l[i]? = some x)
    (hj : l[j]? = some x) (hx : q x = true) : i = j := by
  rcases Nat.lt_trichotomy i j with hij | rfl | hij
  · exact absurd hc (by simpa using two_le_countP_of_getElem_lt hij hi hj hx)
  · rfl
  · exact absurd hc (by simpa using two_le_countP_of_getElem_lt hij hj hi hx)

/-- If a worker goes from running to terminated along a run, some
worker consumed a `Terminate` message in that run. -/
theorem exists_dequeueTerm {P : Nat → Bool} {s s' : PoolState} {tr : List Event}
    {w : Nat} (h : Steps P s tr s') :
    s.workers[w]? = some .running → s'.workers[w]? = some .terminated →
    ∃ u, Event.dequeueTerm u ∈ tr := by
  induction h with
  | nil =>
    intro hw hw'
    rw [hw] at hw'
    exact absurd (Option.some.inj hw') (by simp)
  | @cons s0 s1 s2 e0 tr0 hst hrest ih =>
    intro hw hw'
    cases hst with
    | submit hex =>
      obtain ⟨-, rfl⟩ := execute_eq_ok hex
      obtain ⟨u, hu⟩ := ih hw hw'
      exact ⟨u, List.mem_cons_of_mem _ hu⟩
    | submitFail hex =>
      obtain ⟨u, hu⟩ := ih hw hw'
      exact ⟨u, List.mem_cons_of_mem _ hu⟩
    | dequeueWork hrun hq =>
      rename_i w' b rest
      by_cases hP : P b = true
      · rcases eq_or_ne w' w with rfl | hne
        · exfalso
          have hlt : w' < s0.workers.length := (List.getElem?_eq_some_iff.mp hrun).1
          have hcr : (if P b = true then s0.workers.set w' WStatus.crashed
              else s0.workers)[w']? = some WStatus.crashed := by
            rw [if_pos hP]
            exact List.getElem?_set_self (by simpa using hlt)
          have hstable := steps_not_running_stable hrest hcr (by simp)
          exact absurd (Option.some.inj (hstable.symm.trans hw')) (by simp)
        · obtain ⟨u, hu⟩ :=
            ih (by rw [if_pos hP, List.getElem?_set_ne hne]; exact hw) hw'
          exact ⟨u, List.mem_cons_of_mem _ hu⟩
      · obtain ⟨u, hu⟩ := ih (by rw [if_neg hP]; exact hw) hw'
        exact ⟨u, List.mem_cons_of_mem _ hu⟩
    | dequeueTerm hrun hq =>
      rename_i w' rest
      exact ⟨w', List.mem_cons_self _ _⟩
    | enqueueTerm hr =>
      obtain ⟨u, hu⟩ := ih hw hw'
      exact ⟨u, List.mem_cons_of_mem _ hu⟩

theorem allTerminated_getElem {s : PoolState} (h : allTerminated s) {w : Nat}
    (hw : w < s.workers.length) : s.workers[w]? = some .terminated := by
  rw [List.getElem?_eq_getElem hw]
  exact congrArg some (h _ (List.getElem_mem hw))

/-- All successful submissions happen before the teardown sentinels are
enqueued: the enqueued message sequence is all job messages followed by
all terminate messages.  This reflects that `WorkerPool::execute` takes
`&self` while `Drop::drop` takes `&mut self`, so no submission can
happen during or after the drop. -/
def SubmitsBeforeTerms (tr : List Event) : Prop :=
  ∃ ws ts, enqOf tr = ws ++ ts ∧ (∀ m ∈ ws, ∃ x, m = Msg.work x) ∧
    ∀ m ∈ ts, m = Msg.terminate

theorem lt_of_work_terminate {tr : List Event} (h : SubmitsBeforeTerms tr)
    {i j : Nat} {x : Nat} (hi : (enqOf tr)[i]? = some (.work x))
    (hj : (enqOf tr)[j]? = some .terminate) : i < j := by
  obtain ⟨ws, ts, heq, hws, hts⟩ := h
  rw [heq] at hi hj
  have hi' : i < ws.length := by
    by_contra hge
    push_neg at hge
    rw [List.getElem?_append_right hge] at hi
    exact Msg.noConfusion (hts _ (List.getElem?_mem hi))
  have hj' : ws.length ≤ j := by
    by_contra hlt
    push_neg at hlt
    rw [List.getElem?_append_left hlt] at hj
    obtain ⟨y, hy⟩ := hws _ (List.getElem?_mem hj)
    exact Msg.noConfusion hy
  omega

/-- Running the send loop of `Drop for WorkerPool` appends exactly one
`Terminate` message per worker and touches nothing else. -/
theorem steps_dropSendEvents {P : Nat → Bool} {n : Nat} {s s' : PoolState}
    (h : Steps P s (dropSendEvents n) s') :
    s'.queue = s.queue ++ List.replicate n Msg.terminate ∧ s'.workers = s.workers := by
  induction n generalizing s with
  | zero =>
    cases h
    simp
  | succ n ih =>
    have hrepl : dropSendEvents (n + 1) = Event.enqueueTerm :: dropSendEvents n := by
      simp [dropSendEvents, List.replicate_succ]
    rw [hrepl] at h
    cases h with
    | cons hst hrest =>
      cases hst with
      | enqueueTerm hr =>
        obtain ⟨hq, hw⟩ := ih hrest
        refine ⟨?_, hw⟩
        rw [hq]
        simp [List.replicate_succ]

/-- C1: for any run of the pool from its initial state in which every
submission happens before the teardown sentinels are enqueued
(`SubmitsBeforeTerms`, the discipline forced by Rust's borrow rules), a
job that is submitted exactly once (job ids are fresh `Uuid`s) is
dequeued and run exactly once, provided the run ends with every worker
terminated (i.e. after `Drop` has joined all workers), for any pool
size `1 ≤ M ≤ 16`.  In particular no submitted task is lost and no
dequeued message is executed twice. -/
theorem c1_tasks_run_exactly_once {P : Nat → Bool} {M : Nat} {tr : List Event}
    {final : PoolState} {a : Nat}
    (hM : 1 ≤ M ∧ M ≤ 16)
    (h : Steps P (initState M) tr final)
    (horder : SubmitsBeforeTerms tr)
    (hsub : countSubmit tr a = 1)
    (hterm : allTerminated final) :
    countExec tr a = 1 := by
  have hlen : final.workers.length = M := by
    rw [steps_workers_length h]; simp [initState]
  have hw0 : (initState M).workers[0]? = some WStatus.running := by
    show (List.replicate M WStatus.running)[0]? = some WStatus.running
    rw [List.getElem?_replicate, if_pos (by omega)]
  have hw0' : final.workers[0]? = some WStatus.terminated :=
    allTerminated_getElem hterm (by omega)
  obtain ⟨u, hu⟩ := exists_dequeueTerm h hw0 hw0'
  obtain ⟨p, hp⟩ := List.mem_iff_getElem?.mp hu
  have hdpos : (enqOf tr)[deqCount (tr.take p)]? = some Msg.terminate :=
    deq_event_enq_pos h hp (by simp [deqMsg])
  have hcnt : countMsg (enqOf tr) (.work a) = 1 := by rw [countMsg_enqOf, hsub]
  have hmem : Msg.work a ∈ enqOf tr := by
    have hpos : 0 < countMsg (enqOf tr) (.work a) := by omega
    unfold countMsg at hpos
    rw [List.countP_pos_iff] at hpos
    obtain ⟨m, hm, hmq⟩ := hpos
    have hma : m = Msg.work a := by simpa using hmq
    exact hma ▸ hm
  obtain ⟨iw, hiw⟩ := List.mem_iff_getElem?.mp hmem
  have hilt : iw < deqCount (tr.take p) := lt_of_work_terminate horder hiw hdpos
  have hfq : final.queue = (enqOf tr).drop (deqCount tr) := by
    have hq := steps_queue h
    simpa [initState] using hq
  have hdp1 : deqCount (tr.take p) + 1 ≤ deqCount tr := by
    have h1 : deqCount (tr.take (p + 1)) = deqCount (tr.take p) + 1 :=
      deqCount_take_succ_deq hp (by simp [isDeq])
    have h2 : deqCount (tr.take (p + 1)) ≤ deqCount tr := deqCount_take_le tr (p + 1)
    omega
  have hnores : countMsg final.queue (.work a) = 0 := by
    by_contra hne
    have hpos : 0 < countMsg final.queue (.work a) := Nat.pos_of_ne_zero hne
    unfold countMsg at hpos
    rw [List.countP_pos_iff] at hpos
    obtain ⟨m, hm, hmq⟩ := hpos
    have hma : m = Msg.work a := by simpa using hmq
    subst hma
    obtain ⟨k, hk⟩ := List.mem_iff_getElem?.mp hm
    rw [hfq, List.getElem?_drop] at hk
    have heqpos := getElem?_eq_of_countP_le_one
      (q := fun x => decide (x = Msg.work a))
      (by unfold countMsg at hcnt; omega) hk hiw (by simp)
    omega
  have hfinal := steps_count h a
  rw [hnores, hsub] at hfinal
  have hinit : countMsg (initState M).queue (.work a) = 0 := by
    simp [initState, countMsg]
  omega

/-- C6: FIFO dispatch.  If job `a` is submitted strictly before job `b`
(both submitted exactly once), then the dequeue of `a` occurs strictly
before the dequeue of `b` in the trace, whatever workers pick them up. -/
theorem c6_fifo_dispatch {P : Nat → Bool} {M : Nat} {tr : List Event} {final : PoolState}
    {a b wa wb i j p q : Nat}
    (h : Steps P (initState M) tr final)
    (hi : tr[i]? = some (.submit a)) (hj : tr[j]? = some (.submit b)) (hij : i < j)
    (ha1 : countSubmit tr a = 1) (hb1 : countSubmit tr b = 1)
    (hp : tr[p]? = some (.dequeueWork wa a)) (hq : tr[q]? = some (.dequeueWork wb b)) :
    p < q := by
  have hia := submit_event_enq_pos hi
  have hjb := submit_event_enq_pos hj
  have hpa : (enqOf tr)[deqCount (tr.take p)]? = some (.work a) :=
    deq_event_enq_pos h hp (by simp [deqMsg])
  have hqb : (enqOf tr)[deqCount (tr.take q)]? = some (.work b) :=
    deq_event_enq_pos h hq (by simp [deqMsg])
  have hca : countMsg (enqOf tr) (.work a) = 1 := by rw [countMsg_enqOf, ha1]
  have hcb : countMsg (enqOf tr) (.work b) = 1 := by rw [countMsg_enqOf, hb1]
  have hEa : deqCount (tr.take p) = (enqOf (tr.take i)).length :=
    getElem?_eq_of_countP_le_one (q := fun x => decide (x = Msg.work a))
      (by unfold countMsg at hca; omega) hpa hia (by simp)
  have hEb : deqCount (tr.take q) = (enqOf (tr.take j)).length :=
    getElem?_eq_of_countP_le_one (q := fun x => decide (x = Msg.work b))
      (by unfold countMsg at hcb; omega) hqb hjb (by simp)
  have hEij : (enqOf (tr.take i)).length < (enqOf (tr.take j)).length := by
    have h1 := enqOf_take_succ_submit hi
    have h2 := enqOf_take_length_mono tr (show i + 1 ≤ j by omega)
    omega
  by_contra hqp
  push_neg at hqp
  have hq1 : deqCount (tr.take (q + 1)) = deqCount (tr.take q) + 1 :=
    deqCount_take_succ_deq hq (by simp [isDeq])
  have hcase : q + 1 ≤ p ∨ q = p := by omega
  rcases hcase with hlt | rfl
  · have h2 : deqCount (tr.take (q + 1)) ≤ deqCount (tr.take p) :=
      countP_take_mono isDeq tr hlt
    omega
  · omega

/-- C7: a worker that consumes a `Terminate` message is terminated from
that point on, and no later event has it dequeue anything (neither a
job nor another `Terminate`). -/
theorem c7_terminate_is_final {P : Nat → Bool} {M : Nat} {tr : List Event}
    {final : PoolState} {p w : Nat}
    (h : Steps P (initState M) tr final) (hp : tr[p]? = some (.dequeueTerm w)) :
    (∀ s', Steps P (initState M) (tr.take (p + 1)) s' →
        s'.workers[w]? = some WStatus.terminated) ∧
    (∀ q e, p < q → tr[q]? = some e →
        (∀ x, e ≠ .dequeueWork w x) ∧ e ≠ .dequeueTerm w) := by
  obtain ⟨m₁, m₂, h1, hstep, h2⟩ := steps_at h hp
  have hterm2 : m₂.workers[w]? = some WStatus.terminated := by
    cases hstep with
    | dequeueTerm hrun hqe =>
      have hlt : w < m₁.workers.length := (List.getElem?_eq_some_iff.mp hrun).1
      exact List.getElem?_set_self (by simpa using hlt)
  constructor
  · intro s' hs'
    have hsucc : tr.take (p + 1) = tr.take p ++ [Event.dequeueTerm w] := by
      rw [List.take_succ, hp]; rfl
    rw [hsucc] at hs'
    obtain ⟨mm, hm1, hm2⟩ := steps_append_split hs'
    cases hm2 with
    | cons hst htail =>
      cases htail
      cases hst with
      | dequeueTerm hrun hqe =>
        have hlt : w < mm.workers.length := (List.getElem?_eq_some_iff.mp hrun).1
        exact List.getElem?_set_self (by simpa using hlt)
  · intro q e hpq hqe
    have hq' : (tr.drop (p + 1))[q - (p + 1)]? = some e := by
      rw [List.getElem?_drop]
      rwa [Nat.add_sub_cancel' (by omega : p + 1 ≤ q)]
    obtain ⟨n₁, n₂, hh1, hhstep, hh2⟩ := steps_at h2 hq'
    have hterm3 : n₁.workers[w]? = some WStatus.terminated :=
      steps_not_running_stable hh1 hterm2 (by simp)
    constructor
    · intro x hx
      subst hx
      cases hhstep with
      | dequeueWork hrun hq2 =>
        rw [hterm3] at hrun
        exact absurd (Option.some.inj hrun) (by simp)
    · intro hx
      subst hx
      cases hhstep with
      | dequeueTerm hrun hq2 =>
        rw [hterm3] at hrun
        exact absurd (Option.some.inj hrun) (by simp)

/-- C3: teardown.  The send loop of `Drop for WorkerPool` enqueues
exactly one `Terminate` per worker (and nothing else); once the joins
have returned (every worker terminated), the receiving side of the
queue is closed, and it stays closed forever: in any continuation no
worker is running, no successful submission occurs, and the state never
changes. -/
theorem c3_shutdown_closes_pool {P : Nat → Bool} {M : Nat} {tr : List Event}
    {final : PoolState}
    (h : Steps P (initState M) tr final) (hterm : allTerminated final) :
    ((dropSendEvents M).length = M ∧ ∀ e ∈ dropSendEvents M, e = Event.enqueueTerm) ∧
    (∀ s s' : PoolState, Steps P s (dropSendEvents M) s' →
        s'.queue = s.queue ++ List.replicate M Msg.terminate ∧ s'.workers = s.workers) ∧
    recvOpen final = false ∧
    (∀ tr' s', Steps P final tr' s' →
        allTerminated s' ∧ recvOpen s' = false ∧ ∀ a, Event.submit a ∉ tr') := by
  have hclosed : recvOpen final = false := recvOpen_eq_false_of_allTerminated hterm
  refine ⟨⟨by simp [dropSendEvents], ?_⟩, ?_, hclosed, ?_⟩
  · intro e he
    exact List.eq_of_mem_replicate (by simpa [dropSendEvents] using he)
  · intro s s' hs
    exact steps_dropSendEvents hs
  · intro tr' s' htr'
    obtain ⟨rfl, hall⟩ := steps_from_closed htr' hclosed
    refine ⟨hterm, hclosed, ?_⟩
    intro a hmem
    obtain ⟨b, hb⟩ := hall _ hmem
    exact Event.noConfusion hb

/-- C5: submission.  `WorkerPool::execute` is a total function of the
channel state (it never blocks for capacity); it returns an error
exactly when the queue's receiving side has been torn down (no worker
thread alive any more), and on success the job has been appended to the
queue.  In particular a submission after shutdown (all workers
terminated) returns the error rather than panicking or hanging. -/
theorem c5_execute_never_blocks (s : PoolState) (a : Nat) :
    ((∃ e, PoolState.execute s a = .error e) ↔ recvOpen s = false) ∧
    (∀ s', PoolState.execute s a = .ok s' →
        s'.queue = s.queue ++ [Msg.work a] ∧ s'.workers = s.workers) ∧
    (allTerminated s → ∃ e, PoolState.execute s a = .error e) := by
  have herr : recvOpen s = false → ∃ e, PoolState.execute s a = .error e := by
    intro hc
    refine ⟨⟨"failed to execute job: job_id=" ++ toString a⟩, ?_⟩
    unfold PoolState.execute
    rw [if_neg (by simp [hc])]
  refine ⟨⟨?_, herr⟩, ?_, fun ht => herr (recvOpen_eq_false_of_allTerminated ht)⟩
  · rintro ⟨e, he⟩
    exact execute_eq_error he
  · intro s' hs'
    obtain ⟨-, rfl⟩ := execute_eq_ok hs'
    exact ⟨rfl, rfl⟩

/-- Panic oracle under which every job's closure panics. -/
def panicsAll : Nat → Bool := fun _ => true

/-- C4 (refuted by the code): the worker loop has no panic isolation
around `(job.do_fn)()`, so a job whose closure panics kills the worker
thread: after pool size 1 submits and dequeues one panicking job, the
single worker is crashed, not running, and can never dequeue again. -/
theorem c4_task_panic_kills_worker :
    Steps panicsAll (initState 1) [Event.submit 7, Event.dequeueWork 0 7]
      ⟨[], [WStatus.crashed]⟩ ∧
    (PoolState.mk [] [WStatus.crashed]).workers[0]? = some WStatus.crashed ∧
    WStatus.crashed ≠ WStatus.running ∧
    (∀ x s', ¬ Step panicsAll ⟨[], [WStatus.crashed]⟩ (Event.dequeueWork 0 x) s') := by
  refine ⟨?_, by simp, by simp, ?_⟩
  · exact Steps.cons
      (Step.submit (show PoolState.execute (initState 1) 7
        = .ok ⟨[Msg.work 7], [WStatus.running]⟩ from rfl))
      (Steps.cons (Step.dequeueWork (w := 0) (a := 7) rfl rfl) Steps.nil)
  · intro x s' hstep
    cases hstep with
    | dequeueWork hrun hq => simp at hrun

/-- Whether a fallible computation succeeded. -/
def exceptIsOk {ε α : Type} : Except ε α → Bool
  | .ok _ => true
  | .error _ => false

/-- When every spawn succeeds, the worker loop of `WorkerPool::new`
produces the workers for indices `i, i+1, ..., i+n-1`, each carrying
the `u16` cast of its index as id. -/
theorem mkWorkers_eq (spawnOk : Nat → Bool) :
    ∀ (n i : Nat), (∀ k, k < n → spawnOk (i + k) = true) →
      mkWorkers spawnOk i n =
        .ok ((List.range' i n).map fun k => (⟨k % U16_MOD⟩ : Worker)) := by
  intro n
  induction n with
  | zero => intro i h; simp [mkWorkers]
  | succ n ih =>
    intro i h
    have h0 : spawnOk i = true := by simpa using h 0 (by omega)
    have hrec := ih (i + 1) (fun k hk => by
      have hk1 := h (k + 1) (by omega)
      rwa [show i + (k + 1) = i + 1 + k by omega] at hk1)
    unfold mkWorkers Worker.new
    rw [if_pos h0]
    dsimp only
    rw [hrec]
    rw [List.range'_succ]
    rfl

/-- When every spawn succeeds, `WorkerPool::new(size)` succeeds with
the workers for indices `0, ..., size-1` in order. -/
theorem WorkerPool.new_eq (spawnOk : Nat → Bool) (size : Nat)
    (h : ∀ i, i < size → spawnOk i = true) :
    WorkerPool.new spawnOk size =
      .ok ⟨(List.range' 0 size).map fun k => (⟨k % U16_MOD⟩ : Worker)⟩ := by
  unfold WorkerPool.new
  rw [mkWorkers_eq spawnOk size 0 (by simpa using h)]

/-- C2 (amended): `WorkerPool::new` itself performs no size-bounds
check — for every size it succeeds (absent spawn failure) and spawns
exactly `size` workers; the `InvalidSize` check for sizes outside
`[WORKER_POOL_MIN_SIZE, WORKER_POOL_MAX_SIZE] = [1, 16]` is performed
by `ServerConfig::new`, which rejects out-of-range sizes and accepts
in-range ones. -/
theorem c2_size_check_lives_in_config :
    (∀ (size : Nat) (spawnOk : Nat → Bool), (∀ i, i < size → spawnOk i = true) →
        ∃ p, WorkerPool.new spawnOk size = .ok p ∧ p.workers.length = size) ∧
    (∀ (a0 host port ps : List Char) (rest : List (List Char)) (n : Nat),
        parseUsize (trim ps) = some n →
        (n < WORKER_POOL_MIN_SIZE ∨ n > WORKER_POOL_MAX_SIZE) →
        ∃ e, ServerConfig.new (a0 :: host :: port :: ps :: rest) = .error e) ∧
    (∀ (a0 host port ps : List Char) (rest : List (List Char)) (n : Nat),
        parseUsize (trim ps) = some n →
        WORKER_POOL_MIN_SIZE ≤ n → n ≤ WORKER_POOL_MAX_SIZE →
        ServerConfig.new (a0 :: host :: port :: ps :: rest) = .ok ⟨host, port, n⟩) := by
  refine ⟨?_, ?_, ?_⟩
  · intro size spawnOk hs
    exact ⟨⟨(List.range' 0 size).map fun k => ⟨k % U16_MOD⟩⟩,
      WorkerPool.new_eq spawnOk size hs, by simp⟩
  · intro a0 host port ps rest n hparse hrange
    refine ⟨⟨"invalid pool size"⟩, ?_⟩
    simp only [ServerConfig.new, List.drop_succ_cons, List.drop_zero, hparse]
    rw [if_pos (by
      simp only [WORKER_POOL_MIN_SIZE, WORKER_POOL_MAX_SIZE] at hrange ⊢
      simp only [Bool.or_eq_true, decide_eq_true_eq]
      omega)]
  · intro a0 host port ps rest n hparse h1 h2
    simp only [ServerConfig.new, List.drop_succ_cons, List.drop_zero, hparse]
    rw [if_neg (by
      simp only [WORKER_POOL_MIN_SIZE, WORKER_POOL_MAX_SIZE] at h1 h2 ⊢
      simp only [Bool.or_eq_true, decide_eq_true_eq]
      omega)]

/-- C2 counterexample: `WorkerPool::new(0)` does not fail with
`InvalidSize`; it succeeds and spawns no workers. -/
theorem c2_cex_new_accepts_zero :
    WorkerPool.new (fun _ => true) 0 = .ok ⟨[]⟩ := rfl

/-- C8 (amended): for every size (no bounds check), absent spawn
failure, `WorkerPool::new` returns exactly `size` workers whose ids are
the `u16` casts `k % 65536` of the spawn indices, in spawn order —
hence in order `0, 1, ..., size-1` and all distinct whenever
`size ≤ 65536`. -/
theorem c8_new_spawns_in_order {size : Nat} {spawnOk : Nat → Bool}
    (hs : ∀ i, i < size → spawnOk i = true) :
    ∃ p, WorkerPool.new spawnOk size = .ok p ∧
      p.workers.length = size ∧
      (∀ k, k < size → (p.workers.map Worker.id)[k]? = some (k % U16_MOD)) ∧
      (size ≤ U16_MOD → p.workers.map Worker.id = List.range size) := by
  have hids : ∀ k, k < size →
      (((List.range' 0 size).map fun k => (⟨k % U16_MOD⟩ : Worker)).map
        Worker.id)[k]? = some (k % U16_MOD) := by
    intro k hk
    rw [List.map_map]
    rw [List.getElem?_map, List.getElem?_range' 0 1 hk]
    simp [Function.comp]
  refine ⟨⟨(List.range' 0 size).map fun k => ⟨k % U16_MOD⟩⟩,
    WorkerPool.new_eq spawnOk size hs, by simp, hids, ?_⟩
  · intro hle
    apply List.ext_getElem?
    intro k
    by_cases hk : k < size
    · rw [hids k hk, List.getElem?_range hk, Nat.mod_eq_of_lt (by omega)]
    · rw [List.getElem?_eq_none, List.getElem?_eq_none]
      · simpa [List.length_range] using Nat.le_of_not_lt hk
      · simpa using Nat.le_of_not_lt hk

/-- C8 counterexample: with size 65537 the `i as u16` cast wraps, so
worker index 65536 receives id 0 — the same id as worker 0 — refuting
"ids assigned in order 0, 1, ..., size-1 (all distinct)". -/
theorem c8_cex_u16_wraparound :
    Except.map
      (fun p => ((p.workers.map Worker.id)[0]?, (p.workers.map Worker.id)[65536]?))
      (WorkerPool.new (fun _ => true) 65537) = .ok (some 0, some 0) := by
  rw [WorkerPool.new_eq (fun _ => true) 65537 (fun i _ => rfl)]
  simp only [Except.map]
  rw [List.map_map]
  rw [List.getElem?_map, List.getElem?_map,
    List.getElem?_range' 0 1 (by omega : (0 : Nat) < 65537),
    List.getElem?_range' 0 1 (by omega : (65536 : Nat) < 65537)]
  simp [Function.comp, U16_MOD]

/-- C9: `ServerConfig::new` fails exactly when a positional argument is
missing, the pool-size string does not parse as a `usize`, or the
parsed size lies outside `[1, 16]`; otherwise it returns the given host
and port unchanged together with the parsed size. -/
theorem c9_server_config_spec :
    (∀ args : List (List Char), args.length ≤ 3 →
        ∃ e, ServerConfig.new args = .error e) ∧
    (∀ (a0 host port ps : List Char) (rest : List (List Char)),
        parseUsize (trim ps) = none →
        ∃ e, ServerConfig.new (a0 :: host :: port :: ps :: rest) = .error e) ∧
    (∀ (a0 host port ps : List Char) (rest : List (List Char)) (n : Nat),
        parseUsize (trim ps) = some n → (n < 1 ∨ 16 < n) →
        ∃ e, ServerConfig.new (a0 :: host :: port :: ps :: rest) = .error e) ∧
    (∀ (a0 host port ps : List Char) (rest : List (List Char)) (n : Nat),
        parseUsize (trim ps) = some n → 1 ≤ n → n ≤ 16 →
        ServerConfig.new (a0 :: host :: port :: ps :: rest) = .ok ⟨host, port, n⟩) := by
  refine ⟨?_, ?_, ?_, ?_⟩
  · intro args hlen
    match args with
    | [] => exact ⟨_, rfl⟩
    | [_] => exact ⟨_, rfl⟩
    | [_, _] => exact ⟨_, rfl⟩
    | [_, _, _] => exact ⟨_, rfl⟩
    | _ :: _ :: _ :: _ :: _ => simp at hlen
  · intro a0 host port ps rest hparse
    refine ⟨⟨"failed to parse pool size as usize"⟩, ?_⟩
    simp only [ServerConfig.new, List.drop_succ_cons, List.drop_zero, hparse]
  · intro a0 host port ps rest n hparse hrange
    refine ⟨⟨"invalid pool size"⟩, ?_⟩
    simp only [ServerConfig.new, List.drop_succ_cons, List.drop_zero, hparse]
    rw [if_pos (by
      simp only [WORKER_POOL_MIN_SIZE, WORKER_POOL_MAX_SIZE] at hrange ⊢
      simp only [Bool.or_eq_true, decide_eq_true_eq]
      omega)]
  · intro a0 host port ps rest n hparse h1 h2
    simp only [ServerConfig.new, List.drop_succ_cons, List.drop_zero, hparse]
    rw [if_neg (by
      simp only [WORKER_POOL_MIN_SIZE, WORKER_POOL_MAX_SIZE] at h1 h2 ⊢
      simp only [Bool.or_eq_true, decide_eq_true_eq]
      omega)]

/-- The operand loop succeeds exactly when every token passes the float
parse, and then returns the trimmed tokens in their original order. -/
theorem parseOperandTokens_spec (ts : List (List Char)) :
    (exceptIsOk (parseOperandTokens ts) = true ↔
        ∀ t ∈ ts, isF64Lit (trim t) = true) ∧
    (∀ vs, parseOperandTokens ts = .ok vs → vs = ts.map trim) := by
  induction ts with
  | nil =>
    constructor
    · simp [parseOperandTokens, exceptIsOk]
    · intro vs hvs
      cases hvs
      simp
  | cons t ts ih =>
    by_cases hf : isF64Lit (trim t) = true
    · cases hts : parseOperandTokens ts with
      | error e =>
        constructor
        · constructor
          · intro hok
            exfalso
            simp [parseOperandTokens, hf, hts, exceptIsOk] at hok
          · intro hall
            exfalso
            have hok : exceptIsOk (parseOperandTokens ts) = true :=
              ih.1.mpr fun u hu => hall u (List.mem_cons_of_mem _ hu)
            rw [hts] at hok
            simp [exceptIsOk] at hok
        · intro vs hvs
          exfalso
          simp [parseOperandTokens, hf, hts] at hvs
      | ok vs0 =>
        have hmap := ih.2 vs0 hts
        constructor
        · constructor
          · intro _ u hu
            rcases List.mem_cons.mp hu with rfl | hmem
            · exact hf
            · exact ih.1.mp (by rw [hts]; rfl) u hmem
          · intro _
            simp [parseOperandTokens, hf, hts, exceptIsOk]
        · intro vs hvs
          simp only [parseOperandTokens, hf, if_true, hts] at hvs
          cases hvs
          simp [hmap]
    · constructor
      · constructor
        · intro hok
          exfalso
          simp [parseOperandTokens, hf, exceptIsOk] at hok
        · intro hall
          exact absurd (hall t (List.mem_cons_self _ _)) hf
      · intro vs hvs
        exfalso
        simp [parseOperandTokens, hf] at hvs

/-- The operator match succeeds exactly on the five operator names. -/
theorem opMatch_isSome_iff (s : List Char) :
    (opMatch s).isSome = true ↔
      s ∈ [OPERATOR_ADD, OPERATOR_SUB, OPERATOR_MUL, OPERATOR_DIV, OPERATOR_REM] := by
  unfold opMatch
  split_ifs with h1 h2 h3 h4 h5 <;> simp_all

/-- C10: `Calculation::parse` succeeds exactly when the trimmed,
lowercased operator is one of `add`, `sub`, `mul`, `div`, `rem` and
every comma-separated token of the trimmed operand string passes the
float parse after trimming; on success the operand values (represented
by their trimmed literals) are kept in original order, and on failure
an error value is returned.  Matching the operator through
`toLowerStr (trim op)` is exactly the case-insensitive,
whitespace-tolerant comparison performed by the source. -/
theorem c10_calculation_parse_spec (op os : List Char) :
    (exceptIsOk (Calculation.parse op os) = true ↔
      toLowerStr (trim op) ∈
          [OPERATOR_ADD, OPERATOR_SUB, OPERATOR_MUL, OPERATOR_DIV, OPERATOR_REM] ∧
        ∀ t ∈ splitOnComma (trim os), isF64Lit (trim t) = true) ∧
    (∀ c, Calculation.parse op os = .ok c →
        c.operands = (splitOnComma (trim os)).map trim) ∧
    (exceptIsOk (Calculation.parse op os) = false →
        ∃ e, Calculation.parse op os = .error e) := by
  have hop := opMatch_isSome_iff (toLowerStr (trim op))
  have hts := parseOperandTokens_spec (splitOnComma (trim os))
  refine ⟨?_, ?_, ?_⟩
  · cases hcase : opMatch (toLowerStr (trim op)) with
    | none =>
      constructor
      · intro hok
        exfalso
        simp [Calculation.parse, hcase, exceptIsOk] at hok
      · rintro ⟨hmem, -⟩
        exfalso
        have hsome := hop.mpr hmem
        rw [hcase] at hsome
        simp at hsome
    | some o =>
      cases hpt : parseOperandTokens (splitOnComma (trim os)) with
      | error e =>
        constructor
        · intro hok
          exfalso
          simp [Calculation.parse, hcase, hpt, exceptIsOk] at hok
        · rintro ⟨-, hall⟩
          exfalso
          have hok := hts.1.mpr hall
          rw [hpt] at hok
          simp [exceptIsOk] at hok
      | ok vs =>
        constructor
        · intro _
          exact ⟨hop.mp (by rw [hcase]; rfl), hts.1.mp (by rw [hpt]; rfl)⟩
        · intro _
          simp [Calculation.parse, hcase, hpt, exceptIsOk]
  · intro c hc
    cases hcase : opMatch (toLowerStr (trim op)) with
    | none => simp [Calculation.parse, hcase] at hc
    | some o =>
      cases hpt : parseOperandTokens (splitOnComma (trim os)) with
      | error e => simp [Calculation.parse, hcase, hpt] at hc
      | ok vs =>
        have hmap := hts.2 vs hpt
        simp only [Calculation.parse, hcase, hpt] at hc
        cases hc
        simpa using hmap
  · intro hfalse
    cases hval : Calculation.parse op os with
    | error e => exact ⟨e, rfl⟩
    | ok c =>
      rw [hval] at hfalse
      simp [exceptIsOk] at hfalse

/-- Panic oracle under which no job's closure panics. -/
def noPanics : Nat → Bool := fun _ => false

theorem c1_witness :
    countExec [Event.submit 5, Event.enqueueTerm, Event.dequeueWork 0 5,
      Event.dequeueTerm 0] 5 = 1 :=
  c1_tasks_run_exactly_once (P := noPanics) (M := 1) (a := 5)
    ⟨by omega, by omega⟩
    (Steps.cons (Step.submit (show PoolState.execute (initState 1) 5
        = .ok ⟨[Msg.work 5], [WStatus.running]⟩ from rfl))
      (Steps.cons (Step.enqueueTerm rfl)
        (Steps.cons (Step.dequeueWork (w := 0) (a := 5) rfl rfl)
          (Steps.cons (Step.dequeueTerm (w := 0) rfl rfl) Steps.nil))))
    ⟨[Msg.work 5], [Msg.terminate], rfl,
      by intro m hm; obtain rfl := List.mem_singleton.mp hm; exact ⟨5, rfl⟩,
      by decide⟩
    rfl
    (by decide)

theorem c3_witness : recvOpen ⟨[], [WStatus.terminated]⟩ = false :=
  (c3_shutdown_closes_pool (P := noPanics) (M := 1)
    (Steps.cons (Step.enqueueTerm rfl)
      (Steps.cons (Step.dequeueTerm (w := 0) rfl rfl) Steps.nil))
    (by decide)).2.2.1

theorem c5_witness :
    (PoolState.mk [Msg.work 3] [WStatus.running, WStatus.running]).queue
        = (initState 2).queue ++ [Msg.work 3] ∧
    (PoolState.mk [Msg.work 3] [WStatus.running, WStatus.running]).workers
        = (initState 2).workers :=
  (c5_execute_never_blocks (initState 2) 3).2.1
    ⟨[Msg.work 3], [WStatus.running, WStatus.running]⟩ rfl

theorem c6_witness : (2 : Nat) < 3 :=
  c6_fifo_dispatch (P := noPanics) (M := 1)
    (a := 1) (b := 2) (i := 0) (j := 1) (p := 2) (q := 3)
    (Steps.cons (Step.submit (show PoolState.execute (initState 1) 1
        = .ok ⟨[Msg.work 1], [WStatus.running]⟩ from rfl))
      (Steps.cons (Step.submit (show PoolState.execute ⟨[Msg.work 1], [WStatus.running]⟩ 2
          = .ok ⟨[Msg.work 1, Msg.work 2], [WStatus.running]⟩ from rfl))
        (Steps.cons (Step.dequeueWork (w := 0) (a := 1) rfl rfl)
          (Steps.cons (Step.dequeueWork (w := 0) (a := 2) rfl rfl) Steps.nil))))
    rfl rfl (by omega) rfl rfl rfl rfl

theorem c7_witness : Event.submitFail 3 ≠ Event.dequeueTerm 0 :=
  ((c7_terminate_is_final (P := noPanics) (M := 1) (p := 1) (w := 0)
    (Steps.cons (Step.enqueueTerm rfl)
      (Steps.cons (Step.dequeueTerm (w := 0) rfl rfl)
        (Steps.cons (Step.submitFail
          (e := ⟨"failed to execute job: job_id=" ++ toString 3⟩) rfl) Steps.nil)))
    rfl).2 2 (Event.submitFail 3) (by omega) rfl).2

theorem c2_witness :
    ServerConfig.new [['x'], ['h'], ['p'], ['8']] = .ok ⟨['h'], ['p'], 8⟩ :=
  c2_size_check_lives_in_config.2.2 ['x'] ['h'] ['p'] ['8'] [] 8
    (by decide) (by decide) (by decide)

theorem c8_witness : exceptIsOk (WorkerPool.new (fun _ => true) 3) = true := by
  obtain ⟨p, hp, -, -, -⟩ := @c8_new_spawns_in_order 3 (fun _ => true) (fun i _ => rfl)
  rw [hp]
  rfl

theorem c9_witness :
    ServerConfig.new [['s'], ['a'], ['b'], [' ', '1', '6', ' ']]
      = .ok ⟨['a'], ['b'], 16⟩ :=
  c9_server_config_spec.2.2.2 ['s'] ['a'] ['b'] [' ', '1', '6', ' '] [] 16
    (by decide) (by decide) (by decide)

theorem c10_witness :
    exceptIsOk (Calculation.parse ['A', 'd', 'D'] ['1', ',', ' ', '2', '.', '5']) = true :=
  (c10_calculation_parse_spec ['A', 'd', 'D'] ['1', ',', ' ', '2', '.', '5']).1.mpr
    ⟨by decide, by decide⟩

end Webcalc
